import Mathlib

/-!
Shallow embedding of `packages/core/src/hooklist.rs` (the `HookList`
sequential heterogeneous hook store) and proofs of its specification
properties.

Modelling choices:
* A `Box<dyn Any>` is modelled as a pair of a `tid : Nat` (the `TypeId`
  of the concrete stored type) and a `val : Nat` (an encoding of the
  payload).  `downcast_mut::<T>` succeeds exactly when the stored `tid`
  equals the `TypeId` of `T`, which is how `Any::downcast_mut` behaves.
* The one-shot teardown closure `Box<dyn FnOnce(&mut dyn Any)>` is
  modelled as an opaque action identifier `cleanup : Nat`; running the
  `Drop` impl is modelled as producing the ordered list of invocations
  `(cleanup, current value)` that `drain(..).for_each(..)` performs.
* `RefCell` / `Cell` interior mutability is modelled by explicit state
  passing; the `RefCell` borrow flag is modelled explicitly in the
  panic-freedom development (`stepChecked`) where each operation
  acquires and releases its borrows exactly as the Rust code does.
-/

namespace Hooklist

/-- One registered hook: the type-erased value (`UnsafeCell<Box<dyn Any>>`,
modelled as a `TypeId` tag `tid` plus payload `val`) paired with its
one-shot teardown action (`Box<dyn FnOnce(&mut dyn Any)>`, modelled as the
opaque identifier `cleanup`). -/
structure Entry where
  tid : Nat
  val : Nat
  cleanup : Nat
deriving DecidableEq, Repr

/-- The `HookList` store: `vals` is the ledger
(`RefCell<Vec<(UnsafeCell<Box<dyn Any>>, Box<dyn FnOnce(&mut dyn Any)>)>>`)
and `idx` is the traversal cursor (`Cell<usize>`). -/
structure HookList where
  vals : List Entry
  idx : Nat
deriving DecidableEq, Repr

/-- `HookList::default()`: empty ledger, cursor at 0. -/
def HookList.empty : HookList := ⟨[], 0⟩

/-- `HookList::next::<T>`.  Translated line by line from the source:
`self.vals.borrow().get(self.idx.get()).and_then(|inn| { self.idx.set(self.idx.get() + 1); ... raw_box.downcast_mut::<T>() })`.
The positional lookup (`get`) happens first; if it succeeds the cursor is
incremented BEFORE the downcast is attempted, so the cursor advances even
when the downcast then fails.  Returns the read result together with the
updated store. -/
def HookList.next (h : HookList) (T : Nat) : Option Nat × HookList :=
  match h.vals[h.idx]? with
  | none => (none, h)
  | some inn =>
    let h' : HookList := ⟨h.vals, h.idx + 1⟩
    if inn.tid = T then (some inn.val, h') else (none, h')

/-- `HookList::reset`: `self.idx.set(0)`.  The ledger is untouched. -/
def HookList.reset (h : HookList) : HookList := ⟨h.vals, 0⟩

/-- `HookList::push_hook::<T>`: `self.vals.borrow_mut().push((UnsafeCell::new(Box::new(new)), cleanup))`. -/
def HookList.push_hook (h : HookList) (T v cleanup : Nat) : HookList :=
  ⟨h.vals ++ [⟨T, v, cleanup⟩], h.idx⟩

/-- `HookList::len`: `self.vals.borrow().len()`. -/
def HookList.len (h : HookList) : Nat := h.vals.length

/-- `HookList::cur_idx`: `self.idx.get()`. -/
def HookList.cur_idx (h : HookList) : Nat := h.idx

/-- `HookList::at_end`: `self.cur_idx() >= self.len()`. -/
def HookList.at_end (h : HookList) : Bool := decide (h.len ≤ h.cur_idx)

/-- The iteration performed by `Drop for HookList`:
`drain(..).for_each(|(mut state, cleanup)| cleanup(state.get_mut()))`,
visiting the drained entries front to back and invoking each entry's
teardown action on its current value. -/
def drainForEach : List Entry → List (Nat × Nat)
  | [] => []
  | e :: rest => (e.cleanup, e.val) :: drainForEach rest

/-- `Drop for HookList`: returns the ordered sequence of teardown
invocations `(cleanup action, value it receives)` and the drained store. -/
def HookList.dropRun (h : HookList) : List (Nat × Nat) × HookList :=
  (drainForEach h.vals, ⟨[], h.idx⟩)

/-- The store's public operations, for reasoning about arbitrary
operation sequences.  `lenq`, `curq` and `atendq` are the pure
introspection calls `len`, `cur_idx` and `at_end`. -/
inductive Op where
  | next (T : Nat)
  | push (T v cleanup : Nat)
  | reset
  | lenq
  | curq
  | atendq
deriving DecidableEq, Repr

/-- Effect of one operation on the store state. -/
def HookList.step (h : HookList) : Op → HookList
  | .next T => (h.next T).2
  | .push T v c => h.push_hook T v c
  | .reset => h.reset
  | .lenq => h
  | .curq => h
  | .atendq => h

/-- Run a sequence of operations. -/
def HookList.run (h : HookList) : List Op → HookList
  | [] => h
  | op :: ops => (h.step op).run ops

/-- A store state reachable from the empty store by some operation
sequence. -/
def Reachable (h : HookList) : Prop :=
  ∃ ops : List Op, HookList.empty.run ops = h

/-- A traversal cycle: successive `next` calls with the given sequence of
requested types, collecting the results. -/
def HookList.readAll (h : HookList) : List Nat → List (Option Nat) × HookList
  | [] => ([], h)
  | T :: Ts =>
    let r := h.next T
    let rs := r.2.readAll Ts
    (r.1 :: rs.1, rs.2)

/-! ### Helper lemmas -/

/-- The drop-side iteration is the map of each entry to
`(its teardown action, its current value)`. -/
theorem drainForEach_eq_map (l : List Entry) :
    drainForEach l = l.map (fun e => (e.cleanup, e.val)) := by
  induction l with
  | nil => rfl
  | cons e rest ih => simp [drainForEach, ih]

/-- Unfolding `next` at an in-range position. -/
theorem next_of_get (h : HookList) (T : Nat) (e : Entry)
    (hget : h.vals[h.idx]? = some e) :
    h.next T =
      if e.tid = T then (some e.val, ⟨h.vals, h.idx + 1⟩)
      else (none, ⟨h.vals, h.idx + 1⟩) := by
  unfold HookList.next
  rw [hget]

/-- Unfolding `next` at an out-of-range position. -/
theorem next_of_none (h : HookList) (T : Nat)
    (hget : h.vals[h.idx]? = none) :
    h.next T = (none, h) := by
  unfold HookList.next
  rw [hget]

/-! ### C1 -/

/-- C1 counterexample: the claim "read_next at a type-mismatched in-range
position leaves the cursor unchanged" is false.  Concrete input: a store
with one entry of concrete type `0` (say, int) at cursor position 0, read
with requested type `1 ≠ 0`.  The read does report absence and the entry
is unchanged, but the cursor moves from 0 to 1. -/
theorem C1_counterexample :
    HookList.cur_idx ⟨[⟨0, 7, 5⟩], 0⟩ < HookList.len ⟨[⟨0, 7, 5⟩], 0⟩ ∧
    (HookList.next ⟨[⟨0, 7, 5⟩], 0⟩ 1).1 = none ∧
    (HookList.next ⟨[⟨0, 7, 5⟩], 0⟩ 1).2.vals = [⟨0, 7, 5⟩] ∧
    ¬ ((HookList.next ⟨[⟨0, 7, 5⟩], 0⟩ 1).2.cur_idx
        = HookList.cur_idx ⟨[⟨0, 7, 5⟩], 0⟩) := by
  decide

/-- C1 (amended): for every store whose cursor is at an in-range position
holding an entry of concrete type `U`, and every requested type `T ≠ U`,
`read_next::<T>()` returns absence and leaves the ledger (hence the
entry) unchanged, but advances the cursor by one — the mismatched read
consumes the position. -/
theorem C1_mismatch_consumes (h : HookList) (T : Nat) (e : Entry)
    (hget : h.vals[h.idx]? = some e) (hne : e.tid ≠ T) :
    (h.next T).1 = none ∧
    (h.next T).2.vals = h.vals ∧
    (h.next T).2.cur_idx = h.cur_idx + 1 := by
  rw [next_of_get h T e hget, if_neg hne]
  exact ⟨rfl, rfl, rfl⟩

/-- C1 witness: the amended theorem applied at the concrete store
`[⟨0, 7, 5⟩]` with cursor 0 and requested type 1. -/
theorem C1_mismatch_consumes_witness :
    (HookList.next ⟨[⟨0, 7, 5⟩], 0⟩ 1).1 = none ∧
    (HookList.next ⟨[⟨0, 7, 5⟩], 0⟩ 1).2.vals = [⟨0, 7, 5⟩] ∧
    (HookList.next ⟨[⟨0, 7, 5⟩], 0⟩ 1).2.cur_idx = 1 :=
  C1_mismatch_consumes ⟨[⟨0, 7, 5⟩], 0⟩ 1 ⟨0, 7, 5⟩ (by decide) (by decide)

/-! ### C2 -/

/-- C2: destroying a store with K registered entries invokes exactly K
teardown actions; the invocation sequence pairs each entry's teardown
action with its current (possibly mutated) value, in ledger
(registration) order — entry i's action is invocation i, so each runs
exactly once.  For the concrete 3-entry store whose teardown actions are
tagged 0, 1, 2 in registration order, the logged action sequence is
`[0, 1, 2]`. -/
theorem C2_teardown_once (h : HookList) :
    (h.dropRun).1.length = h.len ∧
    (h.dropRun).1 = h.vals.map (fun e => (e.cleanup, e.val)) ∧
    (HookList.dropRun ⟨[⟨0, 10, 0⟩, ⟨0, 20, 1⟩, ⟨0, 30, 2⟩], 0⟩).1.map Prod.fst
      = [0, 1, 2] := by
  refine ⟨?_, drainForEach_eq_map h.vals, by decide⟩
  simp [HookList.dropRun, HookList.len, drainForEach_eq_map]

/-! ### C4 -/

/-- C4: for every store with `cursor = len` (position exhausted) and
every requested type, `read_next` returns absence and leaves the store —
cursor included — completely unchanged. -/
theorem C4_exhaustion (h : HookList) (T : Nat) (hend : h.cur_idx = h.len) :
    (h.next T).1 = none ∧ (h.next T).2 = h := by
  have hget : h.vals[h.idx]? = none :=
    List.getElem?_eq_none (le_of_eq hend.symm)
  rw [next_of_none h T hget]
  exact ⟨rfl, rfl⟩

/-- C4 witness: the theorem applied at a one-entry store whose cursor is
already at position 1 = len. -/
theorem C4_exhaustion_witness :
    HookList.cur_idx ⟨[⟨0, 7, 5⟩], 1⟩ = HookList.len ⟨[⟨0, 7, 5⟩], 1⟩ ∧
    (HookList.next ⟨[⟨0, 7, 5⟩], 1⟩ 0).1 = none ∧
    (HookList.next ⟨[⟨0, 7, 5⟩], 1⟩ 0).2 = ⟨[⟨0, 7, 5⟩], 1⟩ :=
  ⟨by decide, C4_exhaustion ⟨[⟨0, 7, 5⟩], 1⟩ 0 (by decide)⟩

/-! ### C6 -/

/-- C6: `rewind` (`reset`) sets the cursor to 0 and leaves the ledger —
its length and every entry — unchanged; rewinding twice equals rewinding
once, and `current_position()` is 0 after either. -/
theorem C6_rewind (h : HookList) :
    h.reset.cur_idx = 0 ∧
    h.reset.vals = h.vals ∧
    h.reset.len = h.len ∧
    h.reset.reset = h.reset ∧
    h.reset.reset.cur_idx = 0 :=
  ⟨rfl, rfl, rfl, rfl, rfl⟩

/-! ### C7 -/

/-- C7: for every store state, value and teardown action, `register`
(`push_hook`) appends exactly one entry at the end of the ledger — length
increases by 1 — and does not alter `current_position()`, wherever the
cursor currently is. -/
theorem C7_register_append (h : HookList) (T v c : Nat) :
    (h.push_hook T v c).vals = h.vals ++ [⟨T, v, c⟩] ∧
    (h.push_hook T v c).len = h.len + 1 ∧
    (h.push_hook T v c).cur_idx = h.cur_idx := by
  refine ⟨rfl, ?_, rfl⟩
  simp [HookList.push_hook, HookList.len]

/-! ### C10 -/

/-- C10: for every store whose cursor is at an in-range position
`i < len`, `read_next::<T>()` advances the cursor to `i + 1` whenever the
positional lookup succeeds — including when the stored concrete type
differs from `T` and absence is returned — and leaves the ledger
unchanged, so a failed type-mismatched read consumes the position and the
next `read_next` inspects entry `i + 1`. -/
theorem C10_advance_on_lookup (h : HookList) (T : Nat)
    (hlt : h.cur_idx < h.len) :
    (h.next T).2.cur_idx = h.cur_idx + 1 ∧ (h.next T).2.vals = h.vals := by
  have hget : h.vals[h.idx]? = some (h.vals.get ⟨h.idx, hlt⟩) :=
    List.getElem?_eq_getElem hlt
  rw [next_of_get h T _ hget]
  by_cases hT : (h.vals.get ⟨h.idx, hlt⟩).tid = T
  · rw [if_pos hT]; exact ⟨rfl, rfl⟩
  · rw [if_neg hT]; exact ⟨rfl, rfl⟩

/-- C10 witness: the theorem applied at a one-entry store with cursor 0
and a mismatched requested type. -/
theorem C10_advance_on_lookup_witness :
    HookList.cur_idx ⟨[⟨0, 7, 5⟩], 0⟩ < HookList.len ⟨[⟨0, 7, 5⟩], 0⟩ ∧
    (HookList.next ⟨[⟨0, 7, 5⟩], 0⟩ 3).2.cur_idx = 1 ∧
    (HookList.next ⟨[⟨0, 7, 5⟩], 0⟩ 3).2.vals = [⟨0, 7, 5⟩] :=
  ⟨by decide, C10_advance_on_lookup ⟨[⟨0, 7, 5⟩], 0⟩ 3 (by decide)⟩

/-- A successful positional lookup means the cursor is in range. -/
theorem lt_length_of_getElem?_some (l : List Entry) (n : Nat) (e : Entry)
    (hget : l[n]? = some e) : n < l.length := by
  by_contra hc
  rw [List.getElem?_eq_none (Nat.le_of_not_lt hc)] at hget
  exact Option.noConfusion hget

/-- A full traversal of the suffix of the ledger starting at the cursor,
with matching requested types, returns exactly the suffix's values in
order and moves the cursor past the suffix. -/
theorem readAll_suffix (rest : List Entry) :
    ∀ h : HookList, h.vals.drop h.idx = rest →
      h.readAll (rest.map Entry.tid)
        = (rest.map (fun e => some e.val), ⟨h.vals, h.idx + rest.length⟩) := by
  induction rest with
  | nil =>
    intro h hd
    simp [HookList.readAll]
  | cons e rest ih =>
    intro h hd
    have hget : h.vals[h.idx]? = some e := by
      rw [← List.head?_drop, hd]
      rfl
    have hd' : h.vals.drop (h.idx + 1) = rest := by
      rw [← List.tail_drop, hd]
      rfl
    have hstep : h.next e.tid = (some e.val, ⟨h.vals, h.idx + 1⟩) := by
      rw [next_of_get h e.tid e hget, if_pos rfl]
    have ih' := ih ⟨h.vals, h.idx + 1⟩ hd'
    simp only [List.map_cons, HookList.readAll, hstep, ih', List.length_cons]
    have harith : h.idx + 1 + rest.length = h.idx + (rest.length + 1) := by
      omega
    rw [harith]

/-! ### C3 -/

/-- C3: for every store (however its entries were registered, across one
or more cycles), a rewind followed by reads with the registered types in
ledger order returns exactly the registered values, in order, and doing
the rewind-then-traverse again returns the same values — the traversal is
reproducible and observes entries strictly in ledger order from
position 0. -/
theorem C3_order_preservation (h : HookList) (tids : List Nat)
    (hm : tids = h.vals.map Entry.tid) :
    (h.reset.readAll tids).1 = h.vals.map (fun e => some e.val) ∧
    ((h.reset.readAll tids).2.reset.readAll tids).1
      = h.vals.map (fun e => some e.val) := by
  subst hm
  have h1 := readAll_suffix h.vals h.reset (by simp [HookList.reset])
  constructor
  · rw [h1]
  · rw [h1]
    show ((HookList.reset (⟨h.vals, 0 + h.vals.length⟩ : HookList)).readAll
        (h.vals.map Entry.tid)).1 = _
    have h2 := readAll_suffix h.vals
      (HookList.reset (⟨h.vals, 0 + h.vals.length⟩ : HookList))
      (by simp [HookList.reset])
    rw [h2]

/-- C3 witness: the theorem applied at the concrete two-entry store
holding `1` of type `0` (int) and `5` of type `1` (string). -/
theorem C3_order_preservation_witness :
    [0, 1] = List.map Entry.tid [⟨0, 1, 10⟩, ⟨1, 5, 11⟩] ∧
    ((HookList.reset ⟨[⟨0, 1, 10⟩, ⟨1, 5, 11⟩], 0⟩).readAll [0, 1]).1
      = [some 1, some 5] ∧
    (((HookList.reset ⟨[⟨0, 1, 10⟩, ⟨1, 5, 11⟩], 0⟩).readAll
        [0, 1]).2.reset.readAll [0, 1]).1 = [some 1, some 5] :=
  ⟨by decide,
   (C3_order_preservation ⟨[⟨0, 1, 10⟩, ⟨1, 5, 11⟩], 0⟩ [0, 1]
      (by decide)).1.trans (by decide),
   (C3_order_preservation ⟨[⟨0, 1, 10⟩, ⟨1, 5, 11⟩], 0⟩ [0, 1]
      (by decide)).2.trans (by decide)⟩

/-! ### C5 -/

/-- One operation preserves the cursor bound `idx ≤ len`. -/
theorem step_idx_le (h : HookList) (op : Op) (hle : h.idx ≤ h.vals.length) :
    (h.step op).idx ≤ (h.step op).vals.length := by
  cases op with
  | next T =>
    show (h.next T).2.idx ≤ (h.next T).2.vals.length
    cases hget : h.vals[h.idx]? with
    | none =>
      rw [next_of_none h T hget]
      exact hle
    | some e =>
      have hlt : h.idx < h.vals.length := lt_length_of_getElem?_some _ _ _ hget
      rw [next_of_get h T e hget]
      by_cases hT : e.tid = T
      · rw [if_pos hT]
        exact hlt
      · rw [if_neg hT]
        exact hlt
  | push T v c =>
    show h.idx ≤ (h.vals ++ ([⟨T, v, c⟩] : List Entry)).length
    rw [List.length_append]
    omega
  | reset => exact Nat.zero_le _
  | lenq => exact hle
  | curq => exact hle
  | atendq => exact hle

/-- The cursor bound is preserved along every operation sequence. -/
theorem run_idx_le (ops : List Op) :
    ∀ h : HookList, h.idx ≤ h.vals.length →
      (h.run ops).idx ≤ (h.run ops).vals.length := by
  induction ops with
  | nil =>
    intro h hle
    exact hle
  | cons op ops ih =>
    intro h hle
    exact ih (h.step op) (step_idx_le h op hle)

/-- C5: in every state reachable from the empty store by `read_next`,
`register`, `rewind` and the introspection calls, the cursor satisfies
`0 ≤ cursor ≤ len` (the lower bound is inherent to `Nat`), and `at_end()`
returns `true` exactly when `cursor = len`. -/
theorem C5_cursor_invariant (h : HookList) (hr : Reachable h) :
    h.cur_idx ≤ h.len ∧ (h.at_end = true ↔ h.cur_idx = h.len) := by
  obtain ⟨ops, rfl⟩ := hr
  have hle : (HookList.empty.run ops).cur_idx ≤ (HookList.empty.run ops).len :=
    run_idx_le ops HookList.empty (Nat.le_refl 0)
  refine ⟨hle, ?_⟩
  unfold HookList.at_end
  simp only [decide_eq_true_eq]
  exact ⟨fun hge => Nat.le_antisymm hle hge, fun heq => Nat.le_of_eq heq.symm⟩

/-- C5 witness: the theorem applied at the store reached from empty by a
single `register` call. -/
theorem C5_cursor_invariant_witness :
    Reachable ⟨[⟨0, 7, 5⟩], 0⟩ ∧
    HookList.cur_idx ⟨[⟨0, 7, 5⟩], 0⟩ ≤ HookList.len ⟨[⟨0, 7, 5⟩], 0⟩ ∧
    (HookList.at_end ⟨[⟨0, 7, 5⟩], 0⟩ = true ↔
      HookList.cur_idx ⟨[⟨0, 7, 5⟩], 0⟩ = HookList.len ⟨[⟨0, 7, 5⟩], 0⟩) :=
  have hr : Reachable ⟨[⟨0, 7, 5⟩], 0⟩ := ⟨[Op.push 0 7 5], rfl⟩
  ⟨hr, (C5_cursor_invariant ⟨[⟨0, 7, 5⟩], 0⟩ hr).1,
    (C5_cursor_invariant ⟨[⟨0, 7, 5⟩], 0⟩ hr).2⟩

/-! ### C8 -/

/-- One operation only ever appends to the ledger. -/
theorem step_vals_extend (h : HookList) (op : Op) :
    ∃ t, (h.step op).vals = h.vals ++ t := by
  cases op with
  | next T =>
    refine ⟨[], ?_⟩
    show (h.next T).2.vals = h.vals ++ []
    rw [List.append_nil]
    cases hget : h.vals[h.idx]? with
    | none => rw [next_of_none h T hget]
    | some e =>
      rw [next_of_get h T e hget]
      by_cases hT : e.tid = T
      · rw [if_pos hT]
      · rw [if_neg hT]
  | push T v c => exact ⟨[⟨T, v, c⟩], rfl⟩
  | reset => exact ⟨[], (List.append_nil h.vals).symm⟩
  | lenq => exact ⟨[], (List.append_nil h.vals).symm⟩
  | curq => exact ⟨[], (List.append_nil h.vals).symm⟩
  | atendq => exact ⟨[], (List.append_nil h.vals).symm⟩

/-- Along every operation sequence the ledger of the start state stays in
place as a prefix of the final ledger. -/
theorem run_vals_extend (ops : List Op) :
    ∀ h : HookList, ∃ t, (h.run ops).vals = h.vals ++ t := by
  induction ops with
  | nil =>
    intro h
    exact ⟨[], (List.append_nil h.vals).symm⟩
  | cons op ops ih =>
    intro h
    obtain ⟨t1, ht1⟩ := step_vals_extend h op
    obtain ⟨t2, ht2⟩ := ih (h.step op)
    refine ⟨t1 ++ t2, ?_⟩
    show ((h.step op).run ops).vals = _
    rw [ht2, ht1, List.append_assoc]

/-- C8: across every sequence of operations, the starting ledger persists
unchanged as a prefix of the final ledger (no entry is removed or
reordered, and the length never decreases); every operation other than
`register` leaves the ledger exactly as it is; and full destruction
drains everything at once, leaving the ledger empty. -/
theorem C8_ledger_monotone (h : HookList) (ops : List Op) :
    (∃ t, (h.run ops).vals = h.vals ++ t) ∧
    h.len ≤ (h.run ops).len ∧
    (∀ T : Nat, (h.step (Op.next T)).vals = h.vals) ∧
    (h.step Op.reset).vals = h.vals ∧
    (h.step Op.lenq).vals = h.vals ∧
    (h.step Op.curq).vals = h.vals ∧
    (h.step Op.atendq).vals = h.vals ∧
    ((h.run ops).dropRun).2.vals = [] := by
  obtain ⟨t, ht⟩ := run_vals_extend ops h
  refine ⟨⟨t, ht⟩, ?_, ?_, rfl, rfl, rfl, rfl, rfl⟩
  · show h.vals.length ≤ (h.run ops).vals.length
    rw [ht, List.length_append]
    omega
  · intro T
    show (h.next T).2.vals = h.vals
    cases hget : h.vals[h.idx]? with
    | none => rw [next_of_none h T hget]
    | some e =>
      rw [next_of_get h T e hget]
      by_cases hT : e.tid = T
      · rw [if_pos hT]
      · rw [if_neg hT]

/-! ### C9: panic-freedom model

The only panic sources in the source file are `RefCell::borrow` (panics
while an exclusive borrow is live) and `RefCell::borrow_mut` (panics
while any borrow is live); `Cell::get`/`Cell::set`, `Vec::get`,
`Vec::push` and `downcast_mut` never panic, and a failed read is the
`None` value of the returned `Option`.  We model the `RefCell` borrow
flag explicitly: each operation acquires the borrows its body takes and
releases them when its guards are dropped at the end of the operation,
exactly as the Rust code does. -/

/-- A `RefCell` borrow-conflict panic. -/
inductive Panic where
  | alreadyBorrowed
  | alreadyMutablyBorrowed
deriving DecidableEq, Repr

/-- The borrow flag of the `RefCell` around `vals`: the number of live
shared borrows and whether an exclusive borrow is live. -/
structure BorrowFlag where
  shared : Nat
  exclusive : Bool
deriving DecidableEq, Repr

/-- No live borrows: the flag state between operations, since every
operation's borrow guards are scoped to its own body. -/
def BorrowFlag.free : BorrowFlag := ⟨0, false⟩

/-- One operation, with the `RefCell` borrow discipline made explicit:
`next`, `lenq` and `atendq` take (and release) a shared borrow and panic
if an exclusive borrow is live; `push` takes (and releases) an exclusive
borrow and panics if any borrow is live; `reset` and `curq` touch only
the `Cell` cursor and cannot panic. -/
def HookList.stepChecked (fl : BorrowFlag) (h : HookList) :
    Op → Except Panic (BorrowFlag × HookList)
  | .next T =>
    if fl.exclusive then .error .alreadyMutablyBorrowed
    else
      let acquired : BorrowFlag := ⟨fl.shared + 1, fl.exclusive⟩
      let released : BorrowFlag := ⟨acquired.shared - 1, acquired.exclusive⟩
      .ok (released, (h.next T).2)
  | .push T v c =>
    if fl.shared ≠ 0 ∨ fl.exclusive then .error .alreadyBorrowed
    else
      let acquired : BorrowFlag := ⟨fl.shared, true⟩
      let released : BorrowFlag := ⟨acquired.shared, false⟩
      .ok (released, h.push_hook T v c)
  | .reset => .ok (fl, h.reset)
  | .lenq =>
    if fl.exclusive then .error .alreadyMutablyBorrowed
    else
      let acquired : BorrowFlag := ⟨fl.shared + 1, fl.exclusive⟩
      let released : BorrowFlag := ⟨acquired.shared - 1, acquired.exclusive⟩
      .ok (released, h)
  | .curq => .ok (fl, h)
  | .atendq =>
    if fl.exclusive then .error .alreadyMutablyBorrowed
    else
      let acquired : BorrowFlag := ⟨fl.shared + 1, fl.exclusive⟩
      let released : BorrowFlag := ⟨acquired.shared - 1, acquired.exclusive⟩
      .ok (released, h)

/-- Run a sequence of operations under the explicit borrow discipline,
propagating a panic if one ever occurs. -/
def HookList.runChecked (fl : BorrowFlag) (h : HookList) :
    List Op → Except Panic (BorrowFlag × HookList)
  | [] => .ok (fl, h)
  | op :: ops =>
    match h.stepChecked fl op with
    | .error e => .error e
    | .ok (fl', h') => h'.runChecked fl' ops

/-- From the borrow-free flag, no single operation panics, the flag is
borrow-free again afterwards, and the store evolves exactly as in the
pure model. -/
theorem stepChecked_free (h : HookList) (op : Op) :
    h.stepChecked BorrowFlag.free op = .ok (BorrowFlag.free, h.step op) := by
  cases op with
  | next T => rfl
  | push T v c => rfl
  | reset => rfl
  | lenq => rfl
  | curq => rfl
  | atendq => rfl

/-- No operation sequence from a borrow-free state ever panics, and the
checked run agrees with the pure model. -/
theorem runChecked_free (ops : List Op) :
    ∀ h : HookList,
      h.runChecked BorrowFlag.free ops = .ok (BorrowFlag.free, h.run ops) := by
  induction ops with
  | nil =>
    intro h
    rfl
  | cons op ops ih =>
    intro h
    show (match h.stepChecked BorrowFlag.free op with
      | Except.error e => (Except.error e : Except Panic (BorrowFlag × HookList))
      | Except.ok (fl', h') => h'.runChecked fl' ops) = _
    rw [stepChecked_free h op]
    exact ih (h.step op)

/-- C9: no sequence of store operations started on a fresh store panics:
every `RefCell` borrow is acquired and released within a single
operation, so each operation begins borrow-free, the checked execution
always returns `ok`, and it agrees with the total (pure) semantics —
every `read_next` failure is the absent value of its returned `Option`,
never an exception. -/
theorem C9_no_panics (ops : List Op) :
    HookList.runChecked BorrowFlag.free HookList.empty ops
      = Except.ok (BorrowFlag.free, HookList.empty.run ops) :=
  runChecked_free ops HookList.empty

end Hooklist
